import Mathlib

/-!
# Parallelised image filtering: row-band partition and runners

A shallow embedding of `src/main.cpp`.

* A grayscale `cv::Mat` is the list of its rows; a row is the list of its pixel
  intensities.
* `cv::Canny(_, _, 50, 150)` and `cv::GaussianBlur(_, _, Size(7, 7), 0)` are library
  code; they are the two fields of `Filters`, total functions from a region to a region.
* `int` values (row counts, band bounds) are natural numbers: every value computed by the
  band loop lies between `0` and `input.rows` (see `band_bounds`), so no 32-bit overflow
  occurs.  The comparison `i == num_threads - 1` is done over the
  integers, as in the source.
* An integer division by zero, and an OpenCV assertion failing inside a thread (an
  uncaught exception), end the run abnormally: the functions concerned return `none`.
* A worker thread is one atomic step on the buffer it writes; a schedule is the order in
  which the workers take their steps.
-/

namespace ImageFiltering

/-! ## Data model -/

/-- A grayscale image: the list of rows, each row the list of its pixels. -/
abbrev Mat := List (List Nat)

/-- Dimensions of an image: the width of every row, row by row. Two images have the same
size when these lists agree (same number of rows, same width of each row). -/
def Mat_size (m : Mat) : List Nat := m.map List.length

/-- Field `rows` of `cv::Mat`. -/
def Mat_rows (m : Mat) : Nat := m.length

/-- Field `cols` of `cv::Mat`. -/
def Mat_cols (m : Mat) : Nat :=
  match m with
  | [] => 0
  | r :: _ => r.length

/-- Method `cv::Mat::empty()`: the image holds no pixel. -/
def Mat_empty (m : Mat) : Bool := Mat_rows m * Mat_cols m == 0

/-- Rows `[s, e)` of an image. -/
def slice (m : Mat) (s e : Nat) : Mat := (m.drop s).take (e - s)

/-- The image `dst` with rows `[s, e)` replaced by the rows of `src`. -/
def paste (dst : Mat) (s e : Nat) (src : Mat) : Mat := dst.take s ++ src ++ dst.drop e

/-- Method `cv::Mat::rowRange(start, end)`: the rows `[start, end)`; OpenCV asserts
`0 <= start <= end <= rows` and throws otherwise. -/
def rowRange (m : Mat) (start_row end_row : Nat) : Option Mat :=
  if start_row ≤ end_row ∧ end_row ≤ Mat_rows m then
    some (slice m start_row end_row)
  else none

/-- The call `src.copyTo(dst.rowRange(start, end))`: the destination header is a view of
rows `[start, end)` of `dst`. When `src` has the size of the view the pixels are written
through the view into `dst`; otherwise `copyTo` reallocates the temporary header and `dst`
keeps its content. -/
def copyTo_rowRange (src dst : Mat) (start_row end_row : Nat) : Option Mat :=
  match rowRange dst start_row end_row with
  | none => none
  | some view =>
    if Mat_size src = Mat_size view then
      some (paste dst start_row end_row src)
    else some dst

/-- The two library filters with the parameters fixed in the source:
`Canny m` is `cv::Canny(m, _, 50, 150)`, `GaussianBlur m` is
`cv::GaussianBlur(m, _, cv::Size(7, 7), 0)`. -/
structure Filters where
  Canny : Mat → Mat
  GaussianBlur : Mat → Mat

/-- A filter returns a region of the same dimensions as its input. -/
def SameSize (f : Mat → Mat) : Prop := ∀ m, Mat_size (f m) = Mat_size m

/-! ## The band loop of `main` (modes 2 and 3) -/

/-- Line `int rows_per_thread = input.rows / num_threads;`: an integer division, undefined
for `num_threads = 0`. -/
def rows_per_thread (rows num_threads : Nat) : Option Nat :=
  if num_threads = 0 then none else some (rows / num_threads)

/-- Line `int start_row = i * rows_per_thread;`. -/
def start_row (i rpt : Nat) : Nat := i * rpt

/-- Line `int end_row = (i == num_threads - 1) ? input.rows : start_row + rows_per_thread;`. -/
def end_row (i num_threads rows rpt : Nat) : Nat :=
  if (i : Int) = (num_threads : Int) - 1 then rows else start_row i rpt + rpt

/-- The row ranges handed to the workers by `for (int i = 0; i < num_threads; ++i)`, in
spawn order. -/
def band_loop (rows num_threads rpt : Nat) : List (Nat × Nat) :=
  (List.range num_threads).map
    (fun i => (start_row i rpt, end_row i num_threads rows rpt))

/-- The partition computed by the data-parallel path for `input.rows = rows` and
`hardware_concurrency() = num_threads`. -/
def data_parallel_bands (rows num_threads : Nat) : Option (List (Nat × Nat)) :=
  match rows_per_thread rows num_threads with
  | none => none
  | some rpt => some (band_loop rows num_threads rpt)

/-- The bands of the loop for `N >= 1` threads: `rows_per_thread` is `R / N`. -/
def bands (R N : Nat) : List (Nat × Nat) := band_loop R N (R / N)

/-- Row `r` lies in the half-open band `b = [b.1, b.2)`. -/
def inBand (b : Nat × Nat) (r : Nat) : Prop := b.1 ≤ r ∧ r < b.2

instance (b : Nat × Nat) (r : Nat) : Decidable (inBand b r) := by
  unfold inBand; infer_instance


/-! ## The runners -/

/-- The two output buffers together with the (read-only) input image. -/
structure Buffers where
  input : Mat
  edges_output : Mat
  blurred_output : Mat
  deriving DecidableEq, Repr

/-- Method `EdgeDetection::operator()(input, output)`: `cv::Canny` allocates `output` anew
and fills it, whatever it held. -/
def EdgeDetection (F : Filters) (input _output : Mat) : Mat := F.Canny input

/-- Method `Blur::operator()(input, output)`. -/
def Blur (F : Filters) (input _output : Mat) : Mat := F.GaussianBlur input

/-- Function `apply_filters_sequential`: edge detection, then blur, on the calling thread. -/
def apply_filters_sequential (F : Filters) (b : Buffers) : Buffers :=
  let b1 : Buffers := ⟨b.input, EdgeDetection F b.input b.edges_output, b.blurred_output⟩
  ⟨b1.input, b1.edges_output, Blur F b1.input b1.blurred_output⟩

/-- Function `apply_filters_task_parallelism`: two threads, joined before returning.
`edge_first` is the schedule: which of the two workers takes its step first. -/
def apply_filters_task_parallelism (F : Filters) (edge_first : Bool) (b : Buffers) :
    Buffers :=
  if edge_first then
    let b1 : Buffers := ⟨b.input, EdgeDetection F b.input b.edges_output, b.blurred_output⟩
    ⟨b1.input, b1.edges_output, Blur F b1.input b1.blurred_output⟩
  else
    let b1 : Buffers := ⟨b.input, b.edges_output, Blur F b.input b.blurred_output⟩
    ⟨b1.input, EdgeDetection F b1.input b1.edges_output, b1.blurred_output⟩

/-- Function `apply_filters_data_parallelism(input, output, start_row, end_row)`: the new
content of `output`, or `none` when `rowRange` throws. Both filters are run on the cloned
segment; the result named `edges_output` is the one copied into `output`. -/
def apply_filters_data_parallelism (F : Filters) (input output : Mat)
    (start_row end_row : Nat) : Option Mat :=
  match rowRange input start_row end_row with
  | none => none
  | some segment =>
    let edges_output := F.Canny segment
    let _blurred_output := F.GaussianBlur segment
    copyTo_rowRange edges_output output start_row end_row

/-- The band workers of one output buffer taking their steps in the order of the list. -/
def run_band_workers (F : Filters) (input : Mat) : Mat → List (Nat × Nat) → Option Mat
  | output, [] => some output
  | output, (s, e) :: rest =>
    match apply_filters_data_parallelism F input output s e with
    | none => none
    | some output1 => run_band_workers F input output1 rest

/-- The threads pushed by the band loop of `main`, in spawn order: for each band one worker
on `edges_output` and one on `blurred_output`; the state is the pair of buffers. -/
def data_parallel_loop (F : Filters) (input : Mat) :
    List (Nat × Nat) → Mat × Mat → Option (Mat × Mat)
  | [], st => some st
  | (s, e) :: rest, (edges_output, blurred_output) =>
    match apply_filters_data_parallelism F input edges_output s e with
    | none => none
    | some edges1 =>
      match apply_filters_data_parallelism F input blurred_output s e with
      | none => none
      | some blurred1 => data_parallel_loop F input rest (edges1, blurred1)

/-- The data-parallel block of `main` (identical in modes 2 and 3), up to the joins. -/
def data_parallelism (F : Filters) (hardware_concurrency : Nat) (b : Buffers) :
    Option Buffers :=
  let num_threads := hardware_concurrency
  match rows_per_thread (Mat_rows b.input) num_threads with
  | none => none
  | some rpt =>
    match data_parallel_loop F b.input (band_loop (Mat_rows b.input) num_threads rpt)
        (b.edges_output, b.blurred_output) with
    | none => none
    | some (edges1, blurred1) => some ⟨b.input, edges1, blurred1⟩

/-- The two output files of `main`. -/
inductive OutputPath where
  | output_edges_path
  | output_blurred_path
  deriving DecidableEq, Repr

/-- The tail of `main` after a valid mode: the sequential run, then the two `imwrite`
calls; the result is the exit code and the files written with their content. -/
def sequential_and_write (F : Filters) (b : Buffers) : Int × List (OutputPath × Mat) :=
  let b1 := apply_filters_sequential F b
  (0, [(OutputPath.output_edges_path, b1.edges_output),
       (OutputPath.output_blurred_path, b1.blurred_output)])

/-- Function `main`, as a function of the image returned by `imread`, the number read
into `choice`, the value of `hardware_concurrency()` and the schedule of the task-parallel
phase. The result is the exit code with the files written, or `none` when the process
ends abnormally. Console output and timing are left out. -/
def main (F : Filters) (imread : Mat) (choice : Int) (hardware_concurrency : Nat)
    (edge_first : Bool) : Option (Int × List (OutputPath × Mat)) :=
  let input := imread
  if Mat_empty input then some (-1, [])
  else
    let b0 : Buffers := ⟨input, input, input⟩
    if choice = 1 then
      some (sequential_and_write F (apply_filters_task_parallelism F edge_first b0))
    else if choice = 2 then
      match data_parallelism F hardware_concurrency b0 with
      | none => none
      | some b1 => some (sequential_and_write F b1)
    else if choice = 3 then
      let b1 := apply_filters_task_parallelism F edge_first b0
      match data_parallelism F hardware_concurrency b1 with
      | none => none
      | some b2 => some (sequential_and_write F b2)
    else some (-1, [])


/-! ## Two concrete neighbourhood filters -/

/-- Filter each pixel together with the pixel above it; `above` is the row above the first
row of the region. -/
def rows_with_above (f : Nat → Nat → Nat) (above : List Nat) : Mat → Mat
  | [] => []
  | row :: rest =>
    (row.enum.map (fun p => f p.2 (above.getD p.1 p.2))) :: rows_with_above f row rest

/-- A filter on a region that combines each pixel with its upper neighbour; the first row
of the region is its own upper neighbour (replicated border). -/
def neighbour_filter (f : Nat → Nat → Nat) (m : Mat) : Mat :=
  match m with
  | [] => []
  | row :: _ => rows_with_above f row m

/-- An edge detector: the absolute difference between a pixel and the pixel above it. -/
def vertical_gradient : Mat → Mat := neighbour_filter (fun p a => (p - a) + (a - p))

/-- A smoothing filter: the mean of a pixel and the pixel above it. -/
def vertical_smooth : Mat → Mat := neighbour_filter (fun p a => (p + a) / 2)

/-- Edge detection by vertical gradient, blur by vertical smoothing. -/
def gradient_filters : Filters := ⟨vertical_gradient, vertical_smooth⟩

/-- A 4 x 2 image with a horizontal edge between rows 1 and 2. -/
def step_image : Mat := [[3, 3], [3, 3], [9, 9], [9, 9]]

/-- The buffers of `main` after loading `step_image`: both outputs are clones of it. -/
def step_buffers : Buffers := ⟨step_image, step_image, step_image⟩

/-- Two bands share no row. -/
def BandsDisjoint (a b : Nat × Nat) : Prop := ∀ r, ¬ (inBand a r ∧ inBand b r)

/-- Every band of the list is a valid row range of an image with `R` rows. -/
def BandsValid (R : Nat) (L : List (Nat × Nat)) : Prop := ∀ b ∈ L, b.1 ≤ b.2 ∧ b.2 ≤ R

/-! ## Arithmetic of the partition -/

theorem bands_length (R N : Nat) : (bands R N).length = N := by
  simp [bands, band_loop]

theorem bands_getElem? (R N i : Nat) (hi : i < N) :
    (bands R N)[i]? = some (start_row i (R / N), end_row i N R (R / N)) := by
  simp [bands, band_loop, List.getElem?_range hi]

theorem end_row_last (R N : Nat) (hN : 1 ≤ N) (q : Nat) : end_row (N - 1) N R q = R := by
  unfold end_row
  rw [if_pos (by omega)]

theorem end_row_inner (R N i q : Nat) (hi : i + 1 < N) :
    end_row i N R q = (i + 1) * q := by
  unfold end_row start_row
  rw [if_neg (by omega)]
  ring

theorem mul_div_le_of_lt (R N i : Nat) (hi : i < N) : i * (R / N) + R / N ≤ R := by
  have h1 : (i + 1) * (R / N) ≤ N * (R / N) := Nat.mul_le_mul_right _ (by omega)
  have h2 : N * (R / N) ≤ R := Nat.mul_div_le R N
  have h3 : (i + 1) * (R / N) = i * (R / N) + R / N := by ring
  omega

theorem band_bounds (R N i : Nat) (hi : i < N) :
    start_row i (R / N) ≤ end_row i N R (R / N) ∧ end_row i N R (R / N) ≤ R := by
  have h := mul_div_le_of_lt R N i hi
  revert h
  generalize R / N = q
  intro h
  unfold end_row start_row
  split_ifs with hc
  · constructor <;> omega
  · constructor <;> omega

theorem band_contiguous (R N i : Nat) (hi : i + 1 < N) :
    start_row (i + 1) (R / N) = end_row i N R (R / N) := by
  rw [end_row_inner R N i _ hi]; rfl

theorem band_end_le_start (R N i j : Nat) (hij : i < j) (hj : j < N) :
    end_row i N R (R / N) ≤ start_row j (R / N) := by
  rw [end_row_inner R N i _ (by omega)]
  exact Nat.mul_le_mul_right _ (by omega)

theorem band_cover (R N r : Nat) (hN : 1 ≤ N) (hr : r < R) :
    ∃ i, i < N ∧ start_row i (R / N) ≤ r ∧ r < end_row i N R (R / N) := by
  by_cases h : r < (N - 1) * (R / N)
  · have hq : 0 < R / N := by
      rcases Nat.eq_zero_or_pos (R / N) with h0 | h0
      · rw [h0] at h; simp at h
      · exact h0
    have hlt : r / (R / N) < N - 1 := (Nat.div_lt_iff_lt_mul hq).2 h
    refine ⟨r / (R / N), by omega, ?_, ?_⟩
    · unfold start_row; exact Nat.div_mul_le_self r (R / N)
    · rw [end_row_inner R N _ _ (by omega)]
      have := Nat.lt_mul_div_succ r hq
      calc r < R / N * (r / (R / N) + 1) := this
        _ = (r / (R / N) + 1) * (R / N) := Nat.mul_comm _ _
  · refine ⟨N - 1, by omega, ?_, ?_⟩
    · unfold start_row; omega
    · rw [end_row_last R N hN]; exact hr

/-! ## Rows of a region: slices and pastes -/

theorem length_eq_of_size_eq {a b : Mat} (h : Mat_size a = Mat_size b) :
    a.length = b.length := by
  have := congrArg List.length h
  simpa [Mat_size] using this

theorem take_slice_drop {α : Type} (l : List α) (s e : Nat) (h : s ≤ e) :
    l.take s ++ (l.drop s).take (e - s) ++ l.drop e = l := by
  have h1 : l.drop e = (l.drop s).drop (e - s) := by
    rw [List.drop_drop]; congr 1; omega
  rw [h1, List.append_assoc, List.take_append_drop, List.take_append_drop]

theorem Mat_size_slice (m : Mat) (s e : Nat) :
    Mat_size (slice m s e) = ((Mat_size m).drop s).take (e - s) := by
  simp [Mat_size, slice, List.map_take, List.map_drop]

theorem slice_length (m : Mat) (s e : Nat) (h2 : e ≤ m.length) :
    (slice m s e).length = e - s := by
  simp [slice]; omega

theorem Mat_size_paste (dst src : Mat) (s e : Nat) (h1 : s ≤ e)
    (h : Mat_size src = Mat_size (slice dst s e)) :
    Mat_size (paste dst s e src) = Mat_size dst := by
  have h3 := take_slice_drop (Mat_size dst) s e h1
  rw [← Mat_size_slice, ← h] at h3
  simpa [Mat_size, paste, List.map_take, List.map_drop] using h3

theorem paste_getElem? (dst src : Mat) (s e r : Nat) (h1 : s ≤ e) (h2 : e ≤ dst.length)
    (h : src.length = e - s) :
    (paste dst s e src)[r]? = if s ≤ r ∧ r < e then src[r - s]? else dst[r]? := by
  unfold paste
  by_cases hr1 : r < s
  · rw [if_neg (by omega), List.append_assoc, List.getElem?_append_left (by simp; omega)]
    rw [List.getElem?_take, if_pos hr1]
  · by_cases hr2 : r < e
    · rw [if_pos (by omega), List.getElem?_append_left (by simp; omega),
        List.getElem?_append_right (by simp; omega)]
      congr 1
      simp; omega
    · rw [if_neg (by omega), List.getElem?_append_right (by simp; omega),
        List.getElem?_drop]
      congr 1
      simp; omega

theorem slice_getElem? (m : Mat) (s e k : Nat) :
    (slice m s e)[k]? = if k < e - s then m[s + k]? else none := by
  unfold slice
  split_ifs with hk
  · rw [List.getElem?_take, if_pos hk, List.getElem?_drop]
  · exact List.getElem?_eq_none (by simp; omega)

/-! ## One band worker -/

theorem rowRange_eq (m : Mat) (s e : Nat) (h1 : s ≤ e) (h2 : e ≤ m.length) :
    rowRange m s e = some (slice m s e) := by
  unfold rowRange Mat_rows
  rw [if_pos ⟨h1, h2⟩]

theorem canny_slice_size (F : Filters) (hF : SameSize F.Canny) (input output : Mat)
    (s e : Nat) (hsz : Mat_size output = Mat_size input) :
    Mat_size (F.Canny (slice input s e)) = Mat_size (slice output s e) := by
  rw [hF, Mat_size_slice, Mat_size_slice, hsz]

theorem canny_slice_length (F : Filters) (hF : SameSize F.Canny) (input : Mat)
    (s e : Nat) (h2 : e ≤ input.length) :
    (F.Canny (slice input s e)).length = e - s := by
  rw [length_eq_of_size_eq (hF (slice input s e)), slice_length input s e h2]

theorem worker_eq (F : Filters) (hF : SameSize F.Canny) (input output : Mat) (s e : Nat)
    (hsz : Mat_size output = Mat_size input) (h1 : s ≤ e) (h2 : e ≤ input.length) :
    apply_filters_data_parallelism F input output s e
      = some (paste output s e (F.Canny (slice input s e))) := by
  have hlen := length_eq_of_size_eq hsz
  unfold apply_filters_data_parallelism
  rw [rowRange_eq input s e h1 h2]
  simp only
  unfold copyTo_rowRange
  rw [rowRange_eq output s e h1 (by omega)]
  simp only
  rw [if_pos (canny_slice_size F hF input output s e hsz)]

theorem run_band_workers_spec (F : Filters) (hF : SameSize F.Canny) (input : Mat) :
    ∀ (L : List (Nat × Nat)) (out : Mat), BandsValid input.length L →
      L.Pairwise BandsDisjoint → Mat_size out = Mat_size input →
      ∃ o, run_band_workers F input out L = some o ∧ Mat_size o = Mat_size input ∧
        (∀ b ∈ L, ∀ r, inBand b r →
          o[r]? = (F.Canny (slice input b.1 b.2))[r - b.1]?) ∧
        (∀ r, (∀ b ∈ L, ¬ inBand b r) → o[r]? = out[r]?) := by
  intro L
  induction L with
  | nil =>
    intro out _ _ hsz
    exact ⟨out, rfl, hsz, by simp, fun _ _ => rfl⟩
  | cons b L ih =>
    intro out hv hd hsz
    obtain ⟨s, e⟩ := b
    have hb := hv (s, e) (List.mem_cons_self _ _)
    simp only at hb
    have hlen := length_eq_of_size_eq hsz
    rw [List.pairwise_cons] at hd
    have hsz1 : Mat_size (paste out s e (F.Canny (slice input s e))) = Mat_size input := by
      rw [Mat_size_paste out _ s e hb.1 (canny_slice_size F hF input out s e hsz), hsz]
    obtain ⟨o, ho, hso, hin, hout⟩ :=
      ih (paste out s e (F.Canny (slice input s e)))
        (fun b hbL => hv b (List.mem_cons_of_mem _ hbL)) hd.2 hsz1
    have hpaste : ∀ r, (paste out s e (F.Canny (slice input s e)))[r]?
        = if s ≤ r ∧ r < e then (F.Canny (slice input s e))[r - s]? else out[r]? :=
      fun r => paste_getElem? out _ s e r hb.1 (by omega)
        (canny_slice_length F hF input s e hb.2)
    refine ⟨o, ?_, hso, ?_, ?_⟩
    · simp only [run_band_workers]
      rw [worker_eq F hF input out s e hsz hb.1 hb.2]
      exact ho
    · intro b hbm r hr
      rcases List.mem_cons.1 hbm with hbe | hbL
      · subst hbe
        have hr2 : s ≤ r ∧ r < e := hr
        rw [hout r (fun b2 hb2 h2 => hd.1 b2 hb2 r ⟨hr, h2⟩), hpaste r, if_pos hr2]
      · exact hin b hbL r hr
    · intro r hr
      have hr2 : ¬ (s ≤ r ∧ r < e) := hr (s, e) (List.mem_cons_self _ _)
      rw [hout r (fun b2 hb2 => hr b2 (List.mem_cons_of_mem _ hb2)), hpaste r, if_neg hr2]

theorem data_parallel_loop_eq (F : Filters) (input : Mat) :
    ∀ (L : List (Nat × Nat)) (eo bo : Mat),
      data_parallel_loop F input L (eo, bo)
        = match run_band_workers F input eo L, run_band_workers F input bo L with
          | some eo1, some bo1 => some (eo1, bo1)
          | _, _ => none := by
  intro L
  induction L with
  | nil => intro eo bo; rfl
  | cons b L ih =>
    intro eo bo
    obtain ⟨s, e⟩ := b
    simp only [data_parallel_loop, run_band_workers]
    cases h1 : apply_filters_data_parallelism F input eo s e with
    | none => simp
    | some eo1 =>
      cases h2 : apply_filters_data_parallelism F input bo s e with
      | none =>
        simp only
        cases run_band_workers F input eo1 L <;> rfl
      | some bo1 => simp only; exact ih eo1 bo1

/-! ## The bands as a list -/

theorem mem_bands (R N : Nat) (b : Nat × Nat) :
    b ∈ bands R N ↔ ∃ i, i < N ∧ b = (start_row i (R / N), end_row i N R (R / N)) := by
  simp only [bands, band_loop, List.mem_map, List.mem_range]
  constructor
  · rintro ⟨i, hi, rfl⟩; exact ⟨i, hi, rfl⟩
  · rintro ⟨i, hi, rfl⟩; exact ⟨i, hi, rfl⟩

theorem bands_valid (R N : Nat) : BandsValid R (bands R N) := by
  intro b hb
  obtain ⟨i, hi, rfl⟩ := (mem_bands R N b).1 hb
  exact band_bounds R N i hi

theorem bands_pairwise_disjoint (R N : Nat) : (bands R N).Pairwise BandsDisjoint := by
  unfold bands band_loop
  rw [List.pairwise_map]
  refine List.Pairwise.imp_of_mem ?_ (List.pairwise_lt_range N)
  intro i j _ hj hij r hr
  have hjN : j < N := List.mem_range.1 hj
  have h := band_end_le_start R N i j hij hjN
  have h1 : r < end_row i N R (R / N) := hr.1.2
  have h2 : start_row j (R / N) ≤ r := hr.2.1
  omega

theorem bands_cover (R N r : Nat) (hN : 1 ≤ N) : r < R ↔ ∃ b ∈ bands R N, inBand b r := by
  constructor
  · intro hr
    obtain ⟨i, hi, h1, h2⟩ := band_cover R N r hN hr
    exact ⟨_, (mem_bands R N _).2 ⟨i, hi, rfl⟩, h1, h2⟩
  · rintro ⟨b, hb, h1, h2⟩
    have := (bands_valid R N b hb).2
    omega

theorem data_parallel_bands_eq (R N : Nat) (hN : 1 ≤ N) :
    data_parallel_bands R N = some (bands R N) := by
  unfold data_parallel_bands rows_per_thread bands
  rw [if_neg (by omega)]

theorem bandsDisjoint_symm {a b : Nat × Nat} (h : BandsDisjoint a b) : BandsDisjoint b a :=
  fun r hr => h r ⟨hr.2, hr.1⟩

theorem run_band_workers_perm (F : Filters) (hF : SameSize F.Canny) (input out : Mat)
    (L1 L2 : List (Nat × Nat)) (hv : BandsValid input.length L1)
    (hd : L1.Pairwise BandsDisjoint) (hp : L2.Perm L1)
    (hsz : Mat_size out = Mat_size input) :
    run_band_workers F input out L2 = run_band_workers F input out L1 := by
  have hv2 : BandsValid input.length L2 := fun b hb => hv b (hp.mem_iff.1 hb)
  have hd2 : L2.Pairwise BandsDisjoint :=
    (hp.pairwise_iff (fun h => bandsDisjoint_symm h)).2 hd
  obtain ⟨o1, ho1, hs1, hin1, hout1⟩ := run_band_workers_spec F hF input L1 out hv hd hsz
  obtain ⟨o2, ho2, hs2, hin2, hout2⟩ := run_band_workers_spec F hF input L2 out hv2 hd2 hsz
  rw [ho1, ho2]
  congr 1
  apply List.ext_getElem?
  intro r
  by_cases h : ∃ b ∈ L1, inBand b r
  · obtain ⟨b, hb, hr⟩ := h
    rw [hin1 b hb r hr, hin2 b (hp.mem_iff.2 hb) r hr]
  · have h1 : ∀ b ∈ L1, ¬ inBand b r := fun b hb hr => h ⟨b, hb, hr⟩
    have h2 : ∀ b ∈ L2, ¬ inBand b r := fun b hb hr => h ⟨b, hp.mem_iff.1 hb, hr⟩
    rw [hout1 r h1, hout2 r h2]

theorem slice_of_run (F : Filters) (hF : SameSize F.Canny) (input o : Mat)
    (L : List (Nat × Nat)) (hv : BandsValid input.length L)
    (hin : ∀ b ∈ L, ∀ r, inBand b r → o[r]? = (F.Canny (slice input b.1 b.2))[r - b.1]?)
    (b : Nat × Nat) (hb : b ∈ L) :
    slice o b.1 b.2 = F.Canny (slice input b.1 b.2) := by
  apply List.ext_getElem?
  intro k
  rw [slice_getElem?]
  have hlen := canny_slice_length F hF input b.1 b.2 (hv b hb).2
  split_ifs with hk
  · rw [hin b hb (b.1 + k) ⟨by omega, by omega⟩]
    congr 1
    omega
  · exact (List.getElem?_eq_none (by omega)).symm

/-! ## The partition -/

/-- C1 (partition coverage). For every row count `R` and every band count `N >= 1` the
band loop yields exactly `N` half-open intervals, band `i` being
`[start_row i, end_row i)`; each satisfies `start_row <= end_row <= R`, the first starts at
row 0, each band starts where the previous one ends, the last ends at `R`, no two bands
share a row, and a row lies in some band exactly when it is below `R`. -/
theorem partition_coverage (R N : Nat) (hN : 1 ≤ N) :
    data_parallel_bands R N = some (bands R N) ∧
    (bands R N).length = N ∧
    (∀ i, i < N →
      (bands R N)[i]? = some (start_row i (R / N), end_row i N R (R / N)) ∧
      start_row i (R / N) ≤ end_row i N R (R / N) ∧ end_row i N R (R / N) ≤ R) ∧
    start_row 0 (R / N) = 0 ∧
    (∀ i, i + 1 < N → start_row (i + 1) (R / N) = end_row i N R (R / N)) ∧
    end_row (N - 1) N R (R / N) = R ∧
    (bands R N).Pairwise BandsDisjoint ∧
    (∀ r, r < R ↔ ∃ b ∈ bands R N, inBand b r) :=
  ⟨data_parallel_bands_eq R N hN, bands_length R N,
    fun i hi => ⟨bands_getElem? R N i hi, band_bounds R N i hi⟩,
    by simp [start_row],
    fun i hi => band_contiguous R N i hi,
    end_row_last R N hN _,
    bands_pairwise_disjoint R N,
    fun r => bands_cover R N r hN⟩

/-- Witness of C1: 100 rows in 4 bands are `[0,25), [25,50), [50,75), [75,100)`. -/
theorem partition_coverage_witness :
    1 ≤ 4 ∧ bands 100 4 = [(0, 25), (25, 50), (50, 75), (75, 100)] ∧
    data_parallel_bands 100 4 = some (bands 100 4) ∧ (bands 100 4).length = 4 :=
  ⟨by decide, by decide, (partition_coverage 100 4 (by decide)).1,
    (partition_coverage 100 4 (by decide)).2.1⟩

/-- C2 (last-band sizing). For `N >= 1` the last band has size `R - (N-1) * (R / N)`, every
band `i` in `0..N-2` has size `R / N`, and no band is larger than the last one. -/
theorem last_band_sizing (R N : Nat) (hN : 1 ≤ N) :
    ∃ t u, (bands R N)[N - 1]? = some (t, u) ∧ u - t = R - (N - 1) * (R / N) ∧
      ∀ i s e, (bands R N)[i]? = some (s, e) →
        (i + 1 < N → e - s = R / N) ∧ e - s ≤ u - t := by
  refine ⟨_, _, bands_getElem? R N (N - 1) (by omega), ?_, ?_⟩
  · rw [end_row_last R N hN]; rfl
  · intro i s e hi
    have hiN : i < N := by
      have := (List.getElem?_eq_some.1 hi).1
      rwa [bands_length] at this
    rw [bands_getElem? R N i hiN] at hi
    obtain ⟨rfl, rfl⟩ := Prod.mk.inj (Option.some.inj hi)
    rw [end_row_last R N hN]
    have hlast := mul_div_le_of_lt R N (N - 1) (by omega)
    by_cases hc : i + 1 < N
    · have hmono : i * (R / N) ≤ (N - 1) * (R / N) := Nat.mul_le_mul_right _ (by omega)
      rw [end_row_inner R N i _ hc]
      unfold start_row
      have h3 : (i + 1) * (R / N) = i * (R / N) + R / N := by ring
      generalize R / N = q at hlast hmono h3 ⊢
      refine ⟨fun _ => by omega, by omega⟩
    · have hi1 : i = N - 1 := by omega
      subst hi1
      exact ⟨fun h => absurd h hc, by rw [end_row_last R N hN]⟩

/-- Witness of C2: 10 rows in 4 bands give `rows_per_thread = 2` and the bands
`[0,2), [2,4), [4,6), [6,10)`. -/
theorem last_band_sizing_witness :
    1 ≤ 4 ∧ rows_per_thread 10 4 = some 2 ∧
    bands 10 4 = [(0, 2), (2, 4), (4, 6), (6, 10)] ∧
    ∃ t u, (bands 10 4)[4 - 1]? = some (t, u) ∧ u - t = 10 - (4 - 1) * (10 / 4) ∧
      ∀ i s e, (bands 10 4)[i]? = some (s, e) →
        (i + 1 < 4 → e - s = 10 / 4) ∧ e - s ≤ u - t :=
  ⟨by decide, by decide, by decide, last_band_sizing 10 4 (by decide)⟩

/-- C9 (zero-length bands). When `R < N` the quotient `rows_per_thread` is 0, the bands
`0..N-2` are all the empty interval `[0, 0)` and the last band is `[0, R)`: these are the
row ranges on which the workers are spawned. -/
theorem zero_length_bands (R N : Nat) (hN : 1 ≤ N) (hlt : R < N) :
    rows_per_thread R N = some 0 ∧
    data_parallel_bands R N = some (List.replicate (N - 1) (0, 0) ++ [(0, R)]) ∧
    bands R N = List.replicate (N - 1) (0, 0) ++ [(0, R)] := by
  have hq : R / N = 0 := Nat.div_eq_of_lt hlt
  have hb : bands R N = List.replicate (N - 1) (0, 0) ++ [(0, R)] := by
    obtain ⟨k, rfl⟩ : ∃ k, N = k + 1 := ⟨N - 1, by omega⟩
    unfold bands band_loop
    rw [hq, List.range_succ, List.map_append]
    congr 1
    · rw [List.eq_replicate_iff]
      refine ⟨by simp, ?_⟩
      intro b hb
      obtain ⟨i, hi, rfl⟩ := List.mem_map.1 hb
      have hi2 : i < k := List.mem_range.1 hi
      simp only [start_row, end_row, Nat.mul_zero, Nat.add_zero]
      rw [if_neg (by omega)]
    · simp only [List.map_cons, List.map_nil, start_row, end_row, Nat.mul_zero]
      rw [if_pos (by omega)]
  refine ⟨?_, ?_, hb⟩
  · unfold rows_per_thread
    rw [if_neg (by omega), hq]
  · rw [data_parallel_bands_eq R N hN, hb]

/-- Witness of C9: 2 rows for 4 threads give three empty bands and the band `[0, 2)`. -/
theorem zero_length_bands_witness :
    1 ≤ 4 ∧ 2 < 4 ∧ bands 2 4 = [(0, 0), (0, 0), (0, 0), (0, 2)] ∧
    rows_per_thread 2 4 = some 0 :=
  ⟨by decide, by decide, by decide, (zero_length_bands 2 4 (by decide) (by decide)).1⟩

/-- C5 (minimum band count), evaluated at `hardware_concurrency() = 0`: the division
`input.rows / num_threads` is a division by zero, so no partition is computed and no band
is produced; modes 2 and 3 of `main` end abnormally on a one-pixel image. -/
theorem hardware_concurrency_zero (F : Filters) (R : Nat) (edge_first : Bool) :
    rows_per_thread R 0 = none ∧ data_parallel_bands R 0 = none ∧
    band_loop R 0 0 = [] ∧
    main F [[7]] 2 0 edge_first = none ∧ main F [[7]] 3 0 edge_first = none := by
  refine ⟨rfl, rfl, rfl, ?_, ?_⟩ <;>
    simp [main, Mat_empty, Mat_rows, Mat_cols, data_parallelism, rows_per_thread]

/-! ## Task parallelism -/

/-- C8 (task-parallel result). Whatever the two output buffers held and whichever worker
runs first, `apply_filters_task_parallelism` leaves the input unchanged, `edges_output`
equal to the edge detector applied to the whole input and `blurred_output` equal to blur
applied to the whole input: the same buffers as `apply_filters_sequential`. -/
theorem task_parallel_result (F : Filters) (edge_first : Bool) (b : Buffers) :
    (apply_filters_task_parallelism F edge_first b).input = b.input ∧
    (apply_filters_task_parallelism F edge_first b).edges_output = F.Canny b.input ∧
    (apply_filters_task_parallelism F edge_first b).blurred_output
      = F.GaussianBlur b.input ∧
    apply_filters_task_parallelism F edge_first b = apply_filters_sequential F b := by
  cases edge_first <;>
    simp [apply_filters_task_parallelism, apply_filters_sequential, EdgeDetection, Blur]

/-! ## The data-parallel block -/

theorem eq_of_slices (R N : Nat) (hN : 1 ≤ N) (a c : Mat) (ha : a.length = R)
    (hc : c.length = R)
    (h : ∀ b ∈ bands R N, slice a b.1 b.2 = slice c b.1 b.2) : a = c := by
  apply List.ext_getElem?
  intro r
  by_cases hr : r < R
  · obtain ⟨b, hb, h1, h2⟩ := (bands_cover R N r hN).1 hr
    have hk : r - b.1 < b.2 - b.1 := by omega
    have e1 := slice_getElem? a b.1 b.2 (r - b.1)
    have e2 := slice_getElem? c b.1 b.2 (r - b.1)
    rw [if_pos hk] at e1 e2
    have hidx : b.1 + (r - b.1) = r := by omega
    rw [hidx] at e1 e2
    rw [← e1, ← e2, h b hb]
  · rw [List.getElem?_eq_none (by omega), List.getElem?_eq_none (by omega)]

theorem data_parallelism_spec (F : Filters) (hF : SameSize F.Canny) (b : Buffers)
    (he : Mat_size b.edges_output = Mat_size b.input)
    (hb : Mat_size b.blurred_output = Mat_size b.input) (N : Nat) (hN : 1 ≤ N) :
    ∃ eo bo, data_parallelism F N b = some ⟨b.input, eo, bo⟩ ∧
      run_band_workers F b.input b.edges_output (bands (Mat_rows b.input) N) = some eo ∧
      run_band_workers F b.input b.blurred_output (bands (Mat_rows b.input) N) = some bo ∧
      Mat_size eo = Mat_size b.input ∧ Mat_size bo = Mat_size b.input ∧
      (∀ band ∈ bands (Mat_rows b.input) N,
        slice eo band.1 band.2 = F.Canny (slice b.input band.1 band.2)) ∧
      (∀ band ∈ bands (Mat_rows b.input) N,
        slice bo band.1 band.2 = F.Canny (slice b.input band.1 band.2)) := by
  have hv := bands_valid (Mat_rows b.input) N
  have hd := bands_pairwise_disjoint (Mat_rows b.input) N
  obtain ⟨eo, h1, hs1, hin1, _⟩ :=
    run_band_workers_spec F hF b.input _ b.edges_output hv hd he
  obtain ⟨bo, h2, hs2, hin2, _⟩ :=
    run_band_workers_spec F hF b.input _ b.blurred_output hv hd hb
  refine ⟨eo, bo, ?_, h1, h2, hs1, hs2,
    fun band hband => slice_of_run F hF b.input eo _ hv hin1 band hband,
    fun band hband => slice_of_run F hF b.input bo _ hv hin2 band hband⟩
  unfold data_parallelism rows_per_thread
  simp only
  rw [if_neg (by omega)]
  simp only
  have hloop := data_parallel_loop_eq F b.input (bands (Mat_rows b.input) N)
    b.edges_output b.blurred_output
  rw [h1, h2] at hloop
  unfold bands at hloop
  rw [hloop]

theorem worker_ignores_blur (F : Filters) (G : Mat → Mat) (input output : Mat)
    (s e : Nat) :
    apply_filters_data_parallelism F input output s e
      = apply_filters_data_parallelism ⟨F.Canny, G⟩ input output s e := rfl

theorem size_neighbour_filter (f : Nat → Nat → Nat) : SameSize (neighbour_filter f) := by
  have h : ∀ (m : Mat) (above : List Nat),
      Mat_size (rows_with_above f above m) = Mat_size m := by
    intro m
    induction m with
    | nil => intro above; rfl
    | cons row rest ih =>
      intro above
      have := ih row
      simp only [Mat_size] at this ⊢
      simp [rows_with_above, this]
  intro m
  cases m with
  | nil => rfl
  | cons row rest => exact h (row :: rest) row

theorem task_parallelism_eq (F : Filters) (edge_first : Bool) (b : Buffers) :
    apply_filters_task_parallelism F edge_first b
      = ⟨b.input, F.Canny b.input, F.GaussianBlur b.input⟩ := by
  cases edge_first <;> rfl

theorem sequential_and_write_eq (F : Filters) (b : Buffers) :
    sequential_and_write F b
      = (0, [(OutputPath.output_edges_path, F.Canny b.input),
             (OutputPath.output_blurred_path, F.GaussianBlur b.input)]) := rfl

theorem main_valid_mode (F : Filters) (hC : SameSize F.Canny)
    (hG : SameSize F.GaussianBlur) (img : Mat) (choice : Int) (h : Nat)
    (edge_first : Bool) (hh : 1 ≤ h) (himg : Mat_empty img = false)
    (hchoice : choice = 1 ∨ choice = 2 ∨ choice = 3) :
    main F img choice h edge_first
      = some (0, [(OutputPath.output_edges_path, F.Canny img),
                  (OutputPath.output_blurred_path, F.GaussianBlur img)]) := by
  unfold main
  simp only [himg, Bool.false_eq_true, if_false]
  rcases hchoice with rfl | rfl | rfl
  · simp [sequential_and_write_eq, task_parallelism_eq]
  · obtain ⟨eo, bo, hdp, _⟩ := data_parallelism_spec F hC ⟨img, img, img⟩ rfl rfl h hh
    simp only at hdp
    simp [hdp, sequential_and_write_eq]
  · obtain ⟨eo, bo, hdp, _⟩ := data_parallelism_spec F hC
      ⟨img, F.Canny img, F.GaussianBlur img⟩ (hC img) (hG img) h hh
    simp only at hdp
    simp [task_parallelism_eq, hdp, sequential_and_write_eq]

theorem main_failure (F : Filters) (img : Mat) (choice : Int) (h : Nat)
    (edge_first : Bool)
    (hfail : Mat_empty img = true ∨ (choice ≠ 1 ∧ choice ≠ 2 ∧ choice ≠ 3)) :
    main F img choice h edge_first = some (-1, []) := by
  unfold main
  by_cases himg : Mat_empty img = true
  · simp [himg]
  · rcases hfail with h1 | ⟨h1, h2, h3⟩
    · exact absurd h1 himg
    · simp [himg, h1, h2, h3]

theorem bands_disjoint_of_ne (R N i j : Nat) (hi : i < N) (hj : j < N) (hne : i ≠ j) :
    BandsDisjoint (start_row i (R / N), end_row i N R (R / N))
      (start_row j (R / N), end_row j N R (R / N)) := by
  intro r hr
  have h1 : start_row i (R / N) ≤ r ∧ r < end_row i N R (R / N) := hr.1
  have h2 : start_row j (R / N) ≤ r ∧ r < end_row j N R (R / N) := hr.2
  rcases Nat.lt_or_gt_of_ne hne with hlt | hgt
  · have := band_end_le_start R N i j hlt hj
    omega
  · have := band_end_le_start R N j i hgt hi
    omega

theorem band_of_getElem? (R N i s e : Nat) (h : (bands R N)[i]? = some (s, e)) :
    i < N ∧ s = start_row i (R / N) ∧ e = end_row i N R (R / N) := by
  have hiN : i < N := by
    have := (List.getElem?_eq_some.1 h).1
    rwa [bands_length] at this
  rw [bands_getElem? R N i hiN] at h
  obtain ⟨rfl, rfl⟩ := Prod.mk.inj (Option.some.inj h)
  exact ⟨hiN, rfl, rfl⟩

/-! ## Band workers: frame and order -/

/-- C7 (band writes are disjoint). For an output buffer with the dimensions of the input,
a filter that keeps the dimensions of its input and `N >= 1`, the worker run on band `i`
returns a buffer of the same dimensions in which every row outside `[start_i, end_i)` is
unchanged, in particular all rows of every other band `j`; and the buffer left by the band
workers is the same for every order in which they run. -/
theorem band_writes_disjoint (F : Filters) (hF : SameSize F.Canny) (input output : Mat)
    (hsz : Mat_size output = Mat_size input) (N : Nat) (hN : 1 ≤ N) :
    data_parallel_bands (Mat_rows input) N = some (bands (Mat_rows input) N) ∧
    (∀ i s e : Nat, (bands (Mat_rows input) N)[i]? = some (s, e) →
      ∃ o, apply_filters_data_parallelism F input output s e = some o ∧
        Mat_size o = Mat_size output ∧
        (∀ r, ¬ inBand (s, e) r → o[r]? = output[r]?) ∧
        (∀ j t u : Nat, j ≠ i → (bands (Mat_rows input) N)[j]? = some (t, u) →
          slice o t u = slice output t u)) ∧
    (∀ L : List (Nat × Nat), L.Perm (bands (Mat_rows input) N) →
      run_band_workers F input output L
        = run_band_workers F input output (bands (Mat_rows input) N)) := by
  refine ⟨data_parallel_bands_eq _ N hN, ?_, ?_⟩
  · intro i s e hi
    obtain ⟨hiN, hs, he⟩ := band_of_getElem? _ N i s e hi
    have hb := band_bounds (Mat_rows input) N i hiN
    rw [← hs, ← he] at hb
    have hlen := length_eq_of_size_eq hsz
    have hpaste : ∀ r, (paste output s e (F.Canny (slice input s e)))[r]?
        = if s ≤ r ∧ r < e then (F.Canny (slice input s e))[r - s]? else output[r]? :=
      fun r => paste_getElem? output _ s e r hb.1 (by unfold Mat_rows at hb; omega)
        (canny_slice_length F hF input s e hb.2)
    refine ⟨_, worker_eq F hF input output s e hsz hb.1 hb.2,
      Mat_size_paste output _ s e hb.1 (canny_slice_size F hF input output s e hsz),
      ?_, ?_⟩
    · intro r hr
      have hr2 : ¬ (s ≤ r ∧ r < e) := hr
      rw [hpaste r, if_neg hr2]
    · intro j t u hne hj
      obtain ⟨hjN, ht, hu⟩ := band_of_getElem? _ N j t u hj
      have hdis := bands_disjoint_of_ne (Mat_rows input) N i j hiN hjN (Ne.symm hne)
      rw [← hs, ← he, ← ht, ← hu] at hdis
      apply List.ext_getElem?
      intro k
      rw [slice_getElem?, slice_getElem?]
      split_ifs with hk
      · have hnot : ¬ (s ≤ t + k ∧ t + k < e) := fun hin =>
          hdis (t + k) ⟨hin, ⟨by show t ≤ t + k; omega, by show t + k < u; omega⟩⟩
        rw [hpaste (t + k), if_neg hnot]
      · rfl
  · intro L hp
    exact run_band_workers_perm F hF input output _ L (bands_valid _ N)
      (bands_pairwise_disjoint _ N) hp hsz

/-- Witness of C7: on `step_image` with two bands the workers run in reverse order leave
the same buffer as in spawn order. -/
theorem band_writes_disjoint_witness :
    SameSize gradient_filters.Canny ∧ Mat_size step_image = Mat_size step_image ∧ 1 ≤ 2 ∧
    run_band_workers gradient_filters step_image step_image [(2, 4), (0, 2)]
      = run_band_workers gradient_filters step_image step_image
          (bands (Mat_rows step_image) 2) :=
  ⟨size_neighbour_filter _, rfl, by decide,
    (band_writes_disjoint gradient_filters (size_neighbour_filter _) step_image step_image
      rfl 2 (by decide)).2.2 [(2, 4), (0, 2)] (by decide)⟩

/-! ## Data parallelism against the whole-image filter -/

/-- C3 as stated fails: with the vertical-gradient edge detector (which keeps dimensions),
`step_image` and two bands, the band workers leave an all-zero `edges_output`, while the
detector applied to the whole image marks the edge in row 2. -/
theorem edges_equivalence_counterexample :
    SameSize gradient_filters.Canny ∧
    data_parallelism gradient_filters 2 step_buffers
      = some ⟨step_image, [[0, 0], [0, 0], [0, 0], [0, 0]], [[0, 0], [0, 0], [0, 0], [0, 0]]⟩ ∧
    gradient_filters.Canny step_image = [[0, 0], [0, 0], [6, 6], [0, 0]] ∧
    run_band_workers gradient_filters step_image step_image (bands 4 2)
      ≠ some (gradient_filters.Canny step_image) :=
  ⟨size_neighbour_filter _, by decide, by decide, by decide⟩

/-- C3 amended. For an edge detector that keeps the dimensions of its input and `N >= 1`,
after all band workers have run `edges_output` has the dimensions of the input and the
rows of each band hold the detector applied to that band of the input alone; it is the
detector applied to the whole image exactly when, on every band, the whole-image result
restricted to the band is the result on the band alone. -/
theorem edges_band_by_band (F : Filters) (hF : SameSize F.Canny) (b : Buffers)
    (he : Mat_size b.edges_output = Mat_size b.input)
    (hb : Mat_size b.blurred_output = Mat_size b.input) (N : Nat) (hN : 1 ≤ N) :
    ∃ b1, data_parallelism F N b = some b1 ∧
      run_band_workers F b.input b.edges_output (bands (Mat_rows b.input) N)
        = some b1.edges_output ∧
      Mat_size b1.edges_output = Mat_size b.input ∧
      (∀ band ∈ bands (Mat_rows b.input) N,
        slice b1.edges_output band.1 band.2 = F.Canny (slice b.input band.1 band.2)) ∧
      (b1.edges_output = F.Canny b.input ↔
        ∀ band ∈ bands (Mat_rows b.input) N,
          slice (F.Canny b.input) band.1 band.2 = F.Canny (slice b.input band.1 band.2)) := by
  obtain ⟨eo, bo, hdp, hrun, _, hs, _, hsl, _⟩ := data_parallelism_spec F hF b he hb N hN
  refine ⟨_, hdp, hrun, hs, hsl, ?_, ?_⟩
  · intro heq band hband
    have := hsl band hband
    simp only at heq
    rw [← heq]
    exact this
  · intro h
    refine eq_of_slices (Mat_rows b.input) N hN eo (F.Canny b.input)
      (length_eq_of_size_eq hs) (length_eq_of_size_eq (hF b.input)) ?_
    intro band hband
    rw [hsl band hband, h band hband]

/-- Witness of C3 amended: on `step_image` with two bands the rows of each band of
`edges_output` are the gradient of that band alone. -/
theorem edges_band_by_band_witness :
    SameSize gradient_filters.Canny ∧ 1 ≤ 2 ∧
    ∃ b1, data_parallelism gradient_filters 2 step_buffers = some b1 ∧
      run_band_workers gradient_filters step_buffers.input step_buffers.edges_output
          (bands (Mat_rows step_buffers.input) 2)
        = some b1.edges_output ∧
      Mat_size b1.edges_output = Mat_size step_buffers.input ∧
      (∀ band ∈ bands (Mat_rows step_buffers.input) 2,
        slice b1.edges_output band.1 band.2
          = gradient_filters.Canny (slice step_buffers.input band.1 band.2)) ∧
      (b1.edges_output = gradient_filters.Canny step_buffers.input ↔
        ∀ band ∈ bands (Mat_rows step_buffers.input) 2,
          slice (gradient_filters.Canny step_buffers.input) band.1 band.2
            = gradient_filters.Canny (slice step_buffers.input band.1 band.2)) :=
  ⟨size_neighbour_filter _, by decide,
    edges_band_by_band gradient_filters (size_neighbour_filter _) step_buffers rfl rfl 2
      (by decide)⟩

/-- C4 (equivalence across strategies, blur), evaluated on the code. The band worker
computes `GaussianBlur` on its segment and never uses the result: whatever buffer it is
given receives the `Canny` result, so replacing the blur filter by any other function
leaves the worker unchanged. On `step_image` with one band (no band border at all) the
data-parallel block leaves in `blurred_output` the edge detector of the whole image,
`[[0,0],[0,0],[6,6],[0,0]]`, where blur of the whole image is
`[[3,3],[3,3],[6,6],[9,9]]`; with two bands each band of `blurred_output` holds the
edges of that band, not the blur of that band. -/
theorem blurred_output_receives_edges (F : Filters) (G : Mat → Mat) (input output : Mat)
    (s e : Nat) :
    apply_filters_data_parallelism F input output s e
      = apply_filters_data_parallelism ⟨F.Canny, G⟩ input output s e ∧
    data_parallelism gradient_filters 1 step_buffers
      = some ⟨step_image, gradient_filters.Canny step_image,
          gradient_filters.Canny step_image⟩ ∧
    gradient_filters.Canny step_image = [[0, 0], [0, 0], [6, 6], [0, 0]] ∧
    gradient_filters.GaussianBlur step_image = [[3, 3], [3, 3], [6, 6], [9, 9]] ∧
    (data_parallelism gradient_filters 2 step_buffers).map Buffers.blurred_output
      = some (gradient_filters.Canny (slice step_image 0 2)
          ++ gradient_filters.Canny (slice step_image 2 4)) ∧
    gradient_filters.Canny (slice step_image 0 2)
        ++ gradient_filters.Canny (slice step_image 2 4)
      ≠ gradient_filters.GaussianBlur (slice step_image 0 2)
        ++ gradient_filters.GaussianBlur (slice step_image 2 4) :=
  ⟨worker_ignores_blur F G input output s e, by decide, by decide, by decide, by decide,
    by decide⟩

/-! ## The paths of `main` -/

/-- C6 (failure paths of main). For filters that keep the dimensions of their input and a
hardware concurrency of at least 1, `main` returns -1 and writes no file when the image
fails to load or the choice is none of 1, 2, 3, and otherwise returns 0 after the two
`imwrite` calls (the edge file, then the blur file). -/
theorem main_failure_paths (F : Filters) (hC : SameSize F.Canny)
    (hG : SameSize F.GaussianBlur) (img : Mat) (choice : Int) (h : Nat)
    (edge_first : Bool) (hh : 1 ≤ h) :
    ((Mat_empty img = true ∨ (choice ≠ 1 ∧ choice ≠ 2 ∧ choice ≠ 3)) →
      main F img choice h edge_first = some (-1, [])) ∧
    (Mat_empty img = false → (choice = 1 ∨ choice = 2 ∨ choice = 3) →
      ∃ files, main F img choice h edge_first = some (0, files) ∧
        files.map Prod.fst
          = [OutputPath.output_edges_path, OutputPath.output_blurred_path]) :=
  ⟨fun hfail => main_failure F img choice h edge_first hfail,
    fun himg hchoice =>
      ⟨_, main_valid_mode F hC hG img choice h edge_first hh himg hchoice, rfl⟩⟩

/-- Witness of C6: choice 9 on a loaded image returns -1 and writes nothing. -/
theorem main_failure_paths_witness :
    SameSize gradient_filters.Canny ∧ SameSize gradient_filters.GaussianBlur ∧ 1 ≤ 2 ∧
    main gradient_filters step_image 9 2 true = some (-1, []) :=
  ⟨size_neighbour_filter _, size_neighbour_filter _, by decide,
    (main_failure_paths gradient_filters (size_neighbour_filter _)
      (size_neighbour_filter _) step_image 9 2 true (by decide)).1
      (Or.inr ⟨by decide, by decide, by decide⟩)⟩

/-- C10 (persisted outputs are independent of the mode). For a loaded image, a choice in
1, 2, 3, a hardware concurrency of at least 1 and filters that keep the dimensions of
their input, the two files written are the edge detector applied to the whole input and
blur applied to the whole input: the sequential run overwrites both buffers in full,
whatever the parallel phase left in them. -/
theorem persisted_outputs (F : Filters) (hC : SameSize F.Canny)
    (hG : SameSize F.GaussianBlur) (img : Mat) (choice : Int) (h : Nat)
    (edge_first : Bool) (hh : 1 ≤ h) (himg : Mat_empty img = false)
    (hchoice : choice = 1 ∨ choice = 2 ∨ choice = 3) :
    main F img choice h edge_first
      = some (0, [(OutputPath.output_edges_path, F.Canny img),
                  (OutputPath.output_blurred_path, F.GaussianBlur img)]) ∧
    ∀ edges_output blurred_output : Mat,
      sequential_and_write F ⟨img, edges_output, blurred_output⟩
        = (0, [(OutputPath.output_edges_path, F.Canny img),
               (OutputPath.output_blurred_path, F.GaussianBlur img)]) :=
  ⟨main_valid_mode F hC hG img choice h edge_first hh himg hchoice,
    fun _ _ => rfl⟩

/-- Witness of C10: mode 2 with two threads on `step_image` writes the whole-image
gradient and the whole-image smoothing. -/
theorem persisted_outputs_witness :
    SameSize gradient_filters.Canny ∧ SameSize gradient_filters.GaussianBlur ∧ 1 ≤ 2 ∧
    Mat_empty step_image = false ∧
    main gradient_filters step_image 2 2 true
      = some (0, [(OutputPath.output_edges_path, [[0, 0], [0, 0], [6, 6], [0, 0]]),
                  (OutputPath.output_blurred_path, [[3, 3], [3, 3], [6, 6], [9, 9]])]) :=
  ⟨size_neighbour_filter _, size_neighbour_filter _, by decide, by decide,
    (persisted_outputs gradient_filters (size_neighbour_filter _)
      (size_neighbour_filter _) step_image 2 2 true (by decide) (by decide)
      (Or.inr (Or.inl rfl))).1⟩

end ImageFiltering
